import Mathlib

/-!
Verification of the Chainflip maker / hedge pipeline.

The development shallowly embeds the parts of `maker.py` and `hedge.py` that
the specification talks about:

* the relay-file scan of the hedge main loop (batching by timestamp,
  duplicate suppression, checkpoint persistence),
* `process_order_fill` / `execute_perpetual_order` and the trade / trade-pair
  database rows they insert,
* the quoting loop `run_market_making_bot` and its `last_order_prices` map,
* the tick computation `calculate_tick` / `place_limit_order`,
* the fill decoder `handle_limit_order`,
* the allMids price update of `subscribe_to_hyperliquid_prices`.

Numeric values that Python represents as floats are modelled as rationals
(reals for the logarithm-based tick computation).  The two float-rounding
helpers `round_size` and `round_price` are taken as parameters of the model:
no claim depends on their numeric behaviour, only on where they are applied.
-/

namespace MakerHedge

/-- A FillEvent record as appended to the relay file by the maker
(`write_order_fill` in maker.py): one JSON object per line.  Timestamps are
the whole seconds written by `handle_order_fills` (`int(time.time())`). -/
structure Fill where
  base_asset : String
  quote_asset : String
  side : String
  amount : ℚ
  price : ℚ
  timestamp : ℕ
  fees_earned_asset : ℚ
  fees_asset : String
deriving DecidableEq, Repr

/-- Identity-key strings built by the hedge main loop.  The code builds two
different strings for the same record: the scan filter uses
`f"..._{fill_time}"` with `fill_time = float(fill["timestamp"])` (an integral
timestamp renders as `"100.0"`), while the flush-time duplicate check uses the
raw JSON integer (`"100"`).  For the integer timestamps the maker writes, the
two strings can never coincide; the Boolean component records which of the two
formattings produced the key. -/
abbrev TradeKey := String × ℚ × ℚ × ℕ × Bool

/-- Key added to `processed_trades` when a buffered record is flushed
(raw integer timestamp formatting). -/
def innerKey (f : Fill) : TradeKey := (f.base_asset, f.amount, f.price, f.timestamp, false)

/-- Key checked by the scan filter (`float`-formatted timestamp). -/
def outerKey (f : Fill) : TradeKey := (f.base_asset, f.amount, f.price, f.timestamp, true)

/-- A key list contains only flush-time (raw-formatted) keys.  This holds for
`processed_trades`, which only ever receives `innerKey`s. -/
def innerOnly (s : List TradeKey) : Prop := ∀ k ∈ s, k.2.2.2.2 = false

/-- Flush of `trades_buffer` (hedge.py lines 542-548 and 557-563): iterate the
buffer in reversed (original file) order; each record whose identity key is
not yet in `processed_trades` is handed to `process_order_fill` (emitted here)
and its key recorded.  The argument is the buffer already reversed into file
order; returns the emitted records and the grown key set. -/
def flushRev : List Fill → List TradeKey → List Fill × List TradeKey
  | [], s => ([], s)
  | f :: rest, s =>
    if innerKey f ∈ s then flushRev rest s
    else
      let r := flushRev rest (innerKey f :: s)
      (f :: r.1, r.2)

/-- Flush a buffer held in scan (reversed-file) order. -/
def flushBuffer (buf : List Fill) (s : List TradeKey) : List Fill × List TradeKey :=
  flushRev buf.reverse s

/-- Result of the backward scan loop: records emitted so far, the still-open
buffer, `current_timestamp`, and `processed_trades`. -/
structure LoopOut where
  emitted : List Fill
  buf : List Fill
  ct : Option ℕ
  keys : List TradeKey
deriving DecidableEq, Repr

/-- The `for line in reversed(lines)` loop of hedge.py `main` (lines 529-554).
`cut` is `max(last_processed_time, script_start_time)` (hoisted: the local
`last_processed_time` only changes after the loop), `sst` the script start
time.  A record passing the freshness-and-key filter joins the current batch
if it shares `current_timestamp`, otherwise the batch is flushed and a new one
opened; a record at or before `sst` breaks the loop; any other record is
skipped. -/
def scanLoop (cut sst : ℚ) : List Fill → List Fill → Option ℕ → List TradeKey → LoopOut
  | [], buf, ct, s => ⟨[], buf, ct, s⟩
  | f :: rest, buf, ct, s =>
    if cut < (f.timestamp : ℚ) ∧ outerKey f ∉ s then
      match ct with
      | none => scanLoop cut sst rest (buf ++ [f]) (some f.timestamp) s
      | some t =>
        if f.timestamp = t then scanLoop cut sst rest (buf ++ [f]) (some t) s
        else
          let fl := flushBuffer buf s
          let r := scanLoop cut sst rest [f] (some f.timestamp) fl.2
          ⟨fl.1 ++ r.emitted, r.buf, r.ct, r.keys⟩
    else if (f.timestamp : ℚ) ≤ sst then ⟨[], buf, ct, s⟩
    else scanLoop cut sst rest buf ct s

/-- All records a scan hands to `process_order_fill`, in order: the loop's
emissions followed by the final flush of the remaining buffer. -/
def scanEmitAll (cut sst : ℚ) (rev buf : List Fill) (ct : Option ℕ) (s : List TradeKey) :
    List Fill :=
  (scanLoop cut sst rev buf ct s).emitted ++
    (flushBuffer (scanLoop cut sst rev buf ct s).buf (scanLoop cut sst rev buf ct s).keys).1

/-- Result of one relay scan: records processed (in delivery order), the grown
`processed_trades`, the updated `last_processed_time`, and the checkpoint
value written to disk by `save_last_processed_time`, if any. -/
structure ScanOut where
  emitted : List Fill
  keys : List TradeKey
  lpt : ℚ
  saved : Option ℕ
deriving DecidableEq, Repr

/-- `processed_trades` after a full scan: the loop's key set further grown by
the final flush of the remaining buffer. -/
def scanKeysAll (cut sst : ℚ) (rev buf : List Fill) (ct : Option ℕ) (s : List TradeKey) :
    List TradeKey :=
  (flushBuffer (scanLoop cut sst rev buf ct s).buf (scanLoop cut sst rev buf ct s).keys).2

/-- One pass of the order-fill block in hedge.py `main` (lines 520-570):
scan the relay file backward, flush the final buffer, and — when any new fill
was processed (`new_fills_count > 0`) — set `last_processed_time` to
`current_timestamp` and persist it (`save_last_processed_time`, lines
154-158).  By construction the persisted value is computed only after every
flush of the scan has completed. -/
def runScan (sst lpt : ℚ) (s : List TradeKey) (lines : List Fill) : ScanOut :=
  if 0 < (scanEmitAll (max lpt sst) sst lines.reverse [] none s).length then
    match (scanLoop (max lpt sst) sst lines.reverse [] none s).ct with
    | some t => ⟨scanEmitAll (max lpt sst) sst lines.reverse [] none s,
        scanKeysAll (max lpt sst) sst lines.reverse [] none s, (t : ℚ), some t⟩
    | none => ⟨scanEmitAll (max lpt sst) sst lines.reverse [] none s,
        scanKeysAll (max lpt sst) sst lines.reverse [] none s, lpt, none⟩
  else ⟨scanEmitAll (max lpt sst) sst lines.reverse [] none s,
    scanKeysAll (max lpt sst) sst lines.reverse [] none s, lpt, none⟩

/-- A whole run: the relay file is scanned repeatedly as it grows, threading
`processed_trades` and `last_processed_time` (both initialised once per run).
Returns the per-scan emissions and the final state. -/
def runRelay (sst : ℚ) : List (List Fill) → ℚ → List TradeKey →
    List (List Fill) × ℚ × List TradeKey
  | [], lpt, s => ([], lpt, s)
  | lines :: more, lpt, s =>
    ((runScan sst lpt s lines).emitted ::
        (runRelay sst more (runScan sst lpt s lines).lpt (runScan sst lpt s lines).keys).1,
      (runRelay sst more (runScan sst lpt s lines).lpt (runScan sst lpt s lines).keys).2)

/-- The run state (`last_processed_time`, `processed_trades`) after a prefix
of the scans. -/
def relayStateAfter (sst : ℚ) : List (List Fill) → ℚ → List TradeKey → ℚ × List TradeKey
  | [], lpt, s => (lpt, s)
  | lines :: more, lpt, s =>
    relayStateAfter sst more (runScan sst lpt s lines).lpt (runScan sst lpt s lines).keys

/-- Pure batching behaviour of the scan in the case where every record is
fresh and no identity key repeats: buffer consecutive equal timestamps of the
reversed file, flushing a batch in original file order whenever the timestamp
changes or the scan ends. -/
def batchScan : List Fill → List Fill → List Fill
  | [], buf => buf.reverse
  | f :: rest, buf =>
    match buf with
    | [] => batchScan rest [f]
    | b :: _ =>
      if f.timestamp = b.timestamp then batchScan rest (buf ++ [f])
      else buf.reverse ++ batchScan rest [f]

/-- A row of the `trades` table (hedge.py `record_trade`, lines 94-120).
Fee columns are only populated for Chainflip rows. -/
structure TradeRow where
  exchange : String
  asset : String
  side : String
  amount : ℚ
  price : ℚ
  fees_earned : Option ℚ
  fees_asset : Option String
deriving DecidableEq, Repr

/-- A row of the `trade_pairs` table (hedge.py `insert_trade_pair`,
lines 122-141). -/
structure PairRow where
  asset : String
  chainflip_id : ℕ
  hyperliquid_id : ℕ
  chainflip_amount : ℚ
  chainflip_price : ℚ
  hyperliquid_amount : ℚ
  hyperliquid_price : ℚ
  fees_earned : ℚ
  pnl : ℚ
  pnl_percentage : ℚ
deriving DecidableEq, Repr

/-- The two persisted record sets. -/
structure DB where
  trades : List TradeRow
  pairs : List PairRow
deriving DecidableEq, Repr

/-- `record_trade`: insert a trade row and return its rowid (sqlite rowids are
1-based and auto-incrementing). -/
def record_trade (db : DB) (row : TradeRow) : DB × ℕ :=
  ({ db with trades := db.trades ++ [row] }, db.trades.length + 1)

/-- One element of `result['response']['data']['statuses']` as inspected by
`execute_perpetual_order` (hedge.py lines 238-257). -/
inductive OrderStatus where
  | resting (oid : ℕ)
  | filled (totalSz avgPx : ℚ)
  | statusError (msg : String)
deriving DecidableEq, Repr

/-- Outcome of the `exchange.order(...)` call as seen by
`execute_perpetual_order`: `fail` covers a raised exception, a `None` result
and a non-`ok` status (hedge.py lines 232-236 and 259-262); `ok` carries the
status list of a successful response. -/
inductive OrderResult where
  | fail
  | ok (statuses : List OrderStatus)
deriving DecidableEq, Repr

/-- The `for status in statuses` loop (hedge.py lines 239-257): the first
`resting` or `filled` status records a Hyperliquid trade row and returns its
id; `error` statuses are logged and skipped; if no status matches, the
function falls through and returns `None`. -/
def processStatuses (symbol side : String) (ra rp : ℚ) :
    List OrderStatus → DB → DB × Option ℕ
  | [], db => (db, none)
  | .resting _ :: _, db =>
    let r := record_trade db ⟨"Hyperliquid", symbol, side, ra, rp, none, none⟩
    (r.1, some r.2)
  | .filled sz px :: _, db =>
    let r := record_trade db ⟨"Hyperliquid", symbol, side, sz, px, none, none⟩
    (r.1, some r.2)
  | .statusError _ :: rest, db => processStatuses symbol side ra rp rest db

/-- hedge.py `execute_perpetual_order` (lines 201-264).  `szDec` models the
`sz_decimals` dictionary; `roundSize` and `roundPrice` model the float helpers
`round_size` / `round_price`.  Missing size metadata, a zero rounded size, a
failed request and a response without accepted status all yield no trade id
and leave the database untouched. -/
def execute_perpetual_order (szDec : String → Option ℕ) (roundSize : ℚ → ℕ → ℚ)
    (roundPrice : ℚ → ℚ) (db : DB) (symbol side : String) (amount price : ℚ)
    (result : OrderResult) : DB × Option ℕ :=
  match szDec symbol with
  | none => (db, none)
  | some d =>
    let ra := roundSize amount d
    let rp := roundPrice price
    if ra = 0 then (db, none)
    else
      match result with
      | .fail => (db, none)
      | .ok statuses => processStatuses symbol side ra rp statuses db

/-- PnL of the hedge before fees (hedge.py lines 323-326): for an origin buy,
`(adjusted_price - chainflip_price) * amount`; for a sell, the negation. -/
def hedge_pnl_before_fees (side : String) (origin_price adjusted_price amount : ℚ) : ℚ :=
  if side = "buy" then (adjusted_price - origin_price) * amount
  else (origin_price - adjusted_price) * amount

/-- The hedge order request handed to `execute_perpetual_order`, together
with the basis-point skew that produced its price. -/
structure HedgeSubmission where
  symbol : String
  side : String
  amount : ℚ
  price : ℚ
  bps : ℤ
deriving DecidableEq, Repr

/-- Everything `process_order_fill` produces: the updated database, the hedge
submission (present iff the size-decimals lookup succeeded), the rowid of the
origin (Chainflip) trade, and the hedge trade id if one was returned. -/
structure FillOutcome where
  db : DB
  submission : Option HedgeSubmission
  chainflip_id : ℕ
  hyperliquid_id : Option ℕ
deriving DecidableEq, Repr

/-- hedge.py `process_order_fill` (lines 266-340).  `bpsTable` models
`PRICE_ADJUSTMENT_BPS` (a per-symbol, per-side lookup with defaults -5 for a
sell hedge and 16 for a buy hedge); `result` is the venue's response to the
hedge order.  The Chainflip trade row is recorded first, before the hedge is
attempted; ARBITRUM_ETH fills are hedged on the ETH symbol; a trade pair is
inserted only when a hedge trade id came back. -/
def process_order_fill (szDec : String → Option ℕ) (bpsTable : String → String → Option ℤ)
    (roundSize : ℚ → ℕ → ℚ) (roundPrice : ℚ → ℚ) (db : DB) (fill : Fill)
    (result : OrderResult) : FillOutcome :=
  let symbol := fill.base_asset
  let hedging_symbol := if symbol = "ARBITRUM_ETH" then "ETH" else symbol
  let r0 := record_trade db ⟨"Chainflip", symbol, fill.side, fill.amount, fill.price,
    some fill.fees_earned_asset, some fill.fees_asset⟩
  match szDec hedging_symbol with
  | none => ⟨r0.1, none, r0.2, none⟩
  | some d =>
    let rounded_amount := roundSize fill.amount d
    let hl_side := if fill.side = "buy" then "sell" else "buy"
    let adjustment_bps : ℤ :=
      if fill.side = "buy" then (bpsTable hedging_symbol "sell").getD (-5)
      else (bpsTable hedging_symbol "buy").getD 16
    let adjusted_price := roundPrice (fill.price * (1 + (adjustment_bps : ℚ) / 10000))
    let sub : HedgeSubmission :=
      ⟨hedging_symbol, hl_side, rounded_amount, adjusted_price, adjustment_bps⟩
    let ex := execute_perpetual_order szDec roundSize roundPrice r0.1
      hedging_symbol hl_side rounded_amount adjusted_price result
    match ex.2 with
    | none => ⟨ex.1, some sub, r0.2, none⟩
    | some hlId =>
      let pnl0 := hedge_pnl_before_fees fill.side fill.price adjusted_price fill.amount
      let fees_in_usdc :=
        if fill.fees_asset = symbol then fill.fees_earned_asset * fill.price
        else fill.fees_earned_asset
      let pnl := pnl0 + fees_in_usdc
      let pnl_percentage := pnl / (fill.price * fill.amount) * 100
      ⟨{ ex.1 with pairs := ex.1.pairs ++ [⟨symbol, r0.2, hlId, fill.amount, fill.price,
          rounded_amount, adjusted_price, fees_in_usdc, pnl, pnl_percentage⟩] },
        some sub, r0.2, some hlId⟩

/-- The origin trade row `process_order_fill` records for a fill. -/
def originRow (fill : Fill) : TradeRow :=
  ⟨"Chainflip", fill.base_asset, fill.side, fill.amount, fill.price,
    some fill.fees_earned_asset, some fill.fees_asset⟩

/-- A status is one the code classifies as an accepted order. -/
def OrderStatus.isAccept : OrderStatus → Bool
  | .resting _ => true
  | .filled _ _ => true
  | .statusError _ => false

/-- The venue response contains an accepted (`resting` or `filled`) status. -/
def acceptedResult : OrderResult → Bool
  | .fail => false
  | .ok l => l.any OrderStatus.isAccept

/-- maker.py `calculate_tick` (lines 90-91):
`math.floor(math.log(price * quote_precision / base_precision) / math.log(1.0001))`,
modelled over the reals. -/
noncomputable def calculate_tick (price base_precision quote_precision : ℝ) : ℤ :=
  ⌊Real.log (price * quote_precision / base_precision) / Real.log 1.0001⌋

/-- Base-precision selection in `place_limit_order` (maker.py lines 94-101):
10^18 for ETH and ARBITRUM_ETH, 10^8 for BTC, 10^10 for DOT, 10^6 otherwise. -/
def base_precision_for (asset : String) : ℕ :=
  if asset = "ETH" ∨ asset = "ARBITRUM_ETH" then 10 ^ 18
  else if asset = "BTC" then 10 ^ 8
  else if asset = "DOT" then 10 ^ 10
  else 10 ^ 6

/-- The tick `place_limit_order` computes (maker.py line 105): quote precision
is fixed at 10^6 (USDC). -/
noncomputable def place_limit_order_tick (asset : String) (price : ℝ) : ℤ :=
  calculate_tick price (base_precision_for asset) (10 ^ 6)

/-- Input to `handle_limit_order` (maker.py lines 148-155): a decoded
limit-order fill notification, with `sold` and `bought` the hex-decoded
smallest-unit integers. -/
structure LimitOrderFill where
  lp : String
  base_asset : String
  quote_asset : String
  side : String
  sold : ℕ
  bought : ℕ
deriving DecidableEq, Repr

/-- The dictionary `handle_limit_order` returns. -/
structure OrderData where
  lp_address : String
  base_asset : String
  quote_asset : String
  side : String
  asset_change : ℚ
  usdc_change : ℚ
  average_price : ℚ
  fees_asset : ℚ
  fees_usdc : ℚ
deriving DecidableEq, Repr

/-- The per-asset smallest-unit scale used by `handle_limit_order`
(maker.py lines 157-162): Wei for ETH-like assets, Satoshi for BTC, Planck
for DOT (the final else branch). -/
def fill_asset_precision (base : String) : ℚ :=
  if base = "ETH" ∨ base = "ARBITRUM_ETH" then 10 ^ 18
  else if base = "BTC" then 10 ^ 8
  else 10 ^ 10

/-- maker.py `handle_limit_order` (lines 148-183): decode the signed asset and
quote deltas, compute the average price (zero when the asset delta is zero),
the fixed 5-basis-point fee on the quote notional, and the fee in asset units
(zero when the average price is zero).  Returns `none` for pairs other than
{ETH,BTC,DOT,ARBITRUM_ETH}/USDC. -/
def handle_limit_order (o : LimitOrderFill) : Option OrderData :=
  if (o.base_asset = "ETH" ∨ o.base_asset = "BTC" ∨ o.base_asset = "DOT" ∨
      o.base_asset = "ARBITRUM_ETH") ∧ o.quote_asset = "USDC" then
    let asset_change : ℚ :=
      (if o.side = "sell" then -(o.sold : ℚ) else (o.bought : ℚ)) /
        fill_asset_precision o.base_asset
    let usdc_change : ℚ :=
      (if o.side = "sell" then (o.bought : ℚ) else -(o.sold : ℚ)) / 10 ^ 6
    let average_price : ℚ := if asset_change ≠ 0 then |usdc_change / asset_change| else 0
    let fees_usdc : ℚ := |usdc_change| * 0.0005
    let fees_a : ℚ := if average_price ≠ 0 then fees_usdc / average_price else 0
    some ⟨o.lp, o.base_asset, o.quote_asset, o.side, asset_change, usdc_change,
      average_price, fees_a, fees_usdc⟩
  else none

/-- The four mid prices the maker tracks (`hyperliquid_prices`, and with the
same shape `last_order_prices`). -/
structure MMPrices where
  eth : ℚ
  btc : ℚ
  dot : ℚ
  arbitrum_eth : ℚ
deriving DecidableEq, Repr

/-- The allMids update of `subscribe_to_hyperliquid_prices` (maker.py lines
319-328): each of ETH, BTC, DOT is set from the message (defaulting to 0 when
absent) and ARBITRUM_ETH is then set to the just-written ETH price. -/
def updateMids (mids : String → Option ℚ) : MMPrices :=
  let e := (mids "ETH").getD 0
  { eth := e, btc := (mids "BTC").getD 0, dot := (mids "DOT").getD 0, arbitrum_eth := e }

/-- Configuration read by `run_market_making_bot`: the requote threshold, the
per-asset trade amounts and the buy/sell price factors. -/
structure MMConfig where
  price_change_threshold : ℚ
  eth_sell_amount : ℚ
  eth_buy_amount : ℚ
  btc_sell_amount : ℚ
  btc_buy_amount : ℚ
  dot_sell_amount : ℚ
  dot_buy_amount : ℚ
  arbitrum_eth_sell_amount : ℚ
  arbitrum_eth_buy_amount : ℚ
  eth_buy_factor : ℚ
  eth_sell_factor : ℚ
  btc_buy_factor : ℚ
  btc_sell_factor : ℚ
  dot_buy_factor : ℚ
  dot_sell_factor : ℚ
  arbitrum_eth_buy_factor : ℚ
  arbitrum_eth_sell_factor : ℚ
deriving DecidableEq, Repr

/-- An order placement attempted by the quoting loop (one
`place_limit_order(...)` task appended to `tasks`). -/
structure OrderAttempt where
  asset : String
  side : String
  price : ℚ
  amount : ℚ
  order_id : ℕ
deriving DecidableEq, Repr

/-- The requote condition of maker.py lines 396-399 combined with its use in
lines 403-430: the price change is `|mid - last| / last` when `last` is
non-zero and infinite otherwise, and an asset requotes when the change
exceeds the threshold or no order has been placed yet. -/
def requote (mid last threshold : ℚ) : Bool :=
  decide (last = 0 ∨ |mid - last| / last > threshold)

/-- The (up to two) order tasks one asset block appends: a sell when the
requote condition holds and the sell amount is positive, then a buy likewise
(maker.py lines 403-406 and analogous blocks). -/
def assetTasks (cond : Bool) (asset : String) (sellAmt sellPx buyAmt buyPx : ℚ)
    (sellId buyId : ℕ) : List OrderAttempt :=
  (if cond ∧ sellAmt > 0 then [⟨asset, "sell", sellPx, sellAmt, sellId⟩] else []) ++
  (if cond ∧ buyAmt > 0 then [⟨asset, "buy", buyPx, buyAmt, buyId⟩] else [])

/-- One iteration of the `while True` body of `run_market_making_bot`
(maker.py lines 372-436).  The iteration is skipped while any mid price is
still 0.  One `tasks` list is shared by the four asset blocks, and each
block's `if tasks:` test (lines 407, 415, 423, 431) checks the accumulated
list, so `last_order_prices` for an asset is rewritten whenever any earlier
block appended a task.  Returns the new `last_order_prices` and the attempted
orders. -/
def run_market_making_iteration (cfg : MMConfig) (p last : MMPrices) :
    MMPrices × List OrderAttempt :=
  if p.eth = 0 ∨ p.btc = 0 ∨ p.dot = 0 ∨ p.arbitrum_eth = 0 then (last, [])
  else
    let t1 := assetTasks (requote p.eth last.eth cfg.price_change_threshold) "ETH"
      cfg.eth_sell_amount (p.eth * cfg.eth_sell_factor)
      cfg.eth_buy_amount (p.eth * cfg.eth_buy_factor) 1 2
    let l1 := if t1 ≠ [] then { last with eth := p.eth } else last
    let t2 := t1 ++ assetTasks (requote p.btc last.btc cfg.price_change_threshold) "BTC"
      cfg.btc_sell_amount (p.btc * cfg.btc_sell_factor)
      cfg.btc_buy_amount (p.btc * cfg.btc_buy_factor) 3 4
    let l2 := if t2 ≠ [] then { l1 with btc := p.btc } else l1
    let t3 := t2 ++ assetTasks (requote p.dot last.dot cfg.price_change_threshold) "DOT"
      cfg.dot_sell_amount (p.dot * cfg.dot_sell_factor)
      cfg.dot_buy_amount (p.dot * cfg.dot_buy_factor) 5 6
    let l3 := if t3 ≠ [] then { l2 with dot := p.dot } else l2
    let t4 := t3 ++ assetTasks
      (requote p.arbitrum_eth last.arbitrum_eth cfg.price_change_threshold) "ARBITRUM_ETH"
      cfg.arbitrum_eth_sell_amount (p.arbitrum_eth * cfg.arbitrum_eth_sell_factor)
      cfg.arbitrum_eth_buy_amount (p.arbitrum_eth * cfg.arbitrum_eth_buy_factor) 7 8
    let l4 := if t4 ≠ [] then { l3 with arbitrum_eth := p.arbitrum_eth } else l3
    (l4, t4)

/-! ### Concrete inputs used by counterexamples and witnesses -/

/-- Configuration with a 1% requote threshold, all amounts and factors 1. -/
def c4Config : MMConfig := ⟨1/100, 1, 1, 1, 1, 1, 1, 1, 1, 1, 1, 1, 1, 1, 1, 1, 1⟩

/-- Mid prices: BTC has moved 0.2% (below the 1% threshold). -/
def c4Prices : MMPrices := ⟨2000, 50100, 10, 2000⟩

/-- Previous quoted mids: ETH has never quoted (0), the others match except
BTC which sits at 50000. -/
def c4Last : MMPrices := ⟨0, 50000, 10, 2000⟩

/-- A decoded sell fill: 1 ETH (10^18 Wei) sold for 2000 USDC (2*10^9 micro). -/
def c9Fill : LimitOrderFill := ⟨"lp1", "ETH", "USDC", "sell", 10 ^ 18, 2 * 10 ^ 9⟩

/-- The dictionary `handle_limit_order` produces for `c9Fill`. -/
def c9Data : OrderData := ⟨"lp1", "ETH", "USDC", "sell", -1, 2000, 2000, 1/2000, 1⟩

/-- Size-decimal metadata for the hedged symbols. -/
def cSzDec : String → Option ℕ := fun s =>
  if s = "ETH" ∨ s = "BTC" ∨ s = "DOT" then some 4 else none

/-- An empty skew table (all lookups fall back to the defaults). -/
def cBps : String → String → Option ℤ := fun _ _ => none

/-- Identity stand-in for `round_size`. -/
def cRoundSize : ℚ → ℕ → ℚ := fun a _ => a

/-- Identity stand-in for `round_price`. -/
def cRoundPrice : ℚ → ℚ := fun p => p

/-- A buy fill of 1 ETH at 100 USDC. -/
def c7Fill : Fill := ⟨"ETH", "USDC", "buy", 1, 100, 5, 0, "ETH"⟩

/-- An ARBITRUM_ETH fill. -/
def c10Fill : Fill := ⟨"ARBITRUM_ETH", "USDC", "sell", 2, 100, 5, 0, "ARBITRUM_ETH"⟩

/-- A relay record at timestamp 100. -/
def c3Fill : Fill := ⟨"ETH", "USDC", "buy", 1, 2000, 100, 0, "ETH"⟩

/-- A second relay record at timestamp 100 with a different amount. -/
def c8FillB : Fill := ⟨"ETH", "USDC", "buy", 2, 2000, 100, 0, "ETH"⟩

/-- A relay record at timestamp 101. -/
def c8FillA : Fill := ⟨"ETH", "USDC", "buy", 3, 2000, 101, 0, "ETH"⟩

/-! ### Helper lemmas on the hedge execution path -/

/-- The status loop never touches `trade_pairs` and only ever appends to
`trades`. -/
theorem processStatuses_db (symbol side : String) (ra rp : ℚ) :
    ∀ (l : List OrderStatus) (db : DB),
      (∃ t, (processStatuses symbol side ra rp l db).1.trades = db.trades ++ t) ∧
      (processStatuses symbol side ra rp l db).1.pairs = db.pairs := by
  intro l
  induction l with
  | nil => intro db; exact ⟨⟨[], by simp [processStatuses]⟩, rfl⟩
  | cons s rest ih =>
    intro db
    cases s with
    | resting oid => exact ⟨⟨_, rfl⟩, rfl⟩
    | filled sz px => exact ⟨⟨_, rfl⟩, rfl⟩
    | statusError m => exact ih db

/-- If no status is accepted, the status loop returns the database unchanged
and no trade id. -/
theorem processStatuses_notAccept (symbol side : String) (ra rp : ℚ) :
    ∀ (l : List OrderStatus) (db : DB), l.any OrderStatus.isAccept = false →
      processStatuses symbol side ra rp l db = (db, none) := by
  intro l
  induction l with
  | nil => intro db _; rfl
  | cons s rest ih =>
    intro db hl
    cases s with
    | resting oid => simp [OrderStatus.isAccept] at hl
    | filled sz px => simp [OrderStatus.isAccept] at hl
    | statusError m =>
      simp only [List.any_cons, OrderStatus.isAccept, Bool.false_or] at hl
      exact ih db hl

/-- A trade id from the status loop requires an accepted status. -/
theorem processStatuses_accept (symbol side : String) (ra rp : ℚ) :
    ∀ (l : List OrderStatus) (db : DB) (i : ℕ),
      (processStatuses symbol side ra rp l db).2 = some i →
      l.any OrderStatus.isAccept = true := by
  intro l
  induction l with
  | nil => intro db i h; simp [processStatuses] at h
  | cons s rest ih =>
    intro db i h
    cases s with
    | resting oid => simp [OrderStatus.isAccept]
    | filled sz px => simp [OrderStatus.isAccept]
    | statusError m =>
      simp only [List.any_cons, OrderStatus.isAccept, Bool.false_or]
      exact ih db i h

/-- `execute_perpetual_order` never touches `trade_pairs` and only appends to
`trades`. -/
theorem execute_db (szDec : String → Option ℕ) (roundSize : ℚ → ℕ → ℚ)
    (roundPrice : ℚ → ℚ) (db : DB) (symbol side : String) (amount price : ℚ)
    (result : OrderResult) :
    (∃ t, (execute_perpetual_order szDec roundSize roundPrice db symbol side amount price
        result).1.trades = db.trades ++ t) ∧
    (execute_perpetual_order szDec roundSize roundPrice db symbol side amount price
        result).1.pairs = db.pairs := by
  unfold execute_perpetual_order
  cases szDec symbol with
  | none => exact ⟨⟨[], by simp⟩, rfl⟩
  | some d =>
    dsimp only
    split
    · exact ⟨⟨[], by simp⟩, rfl⟩
    · cases result with
      | fail => exact ⟨⟨[], by simp⟩, rfl⟩
      | ok statuses => exact processStatuses_db symbol side _ _ statuses db

/-- A hedge trade id requires an accepted venue response. -/
theorem execute_accept (szDec : String → Option ℕ) (roundSize : ℚ → ℕ → ℚ)
    (roundPrice : ℚ → ℚ) (db : DB) (symbol side : String) (amount price : ℚ)
    (result : OrderResult) (i : ℕ)
    (h : (execute_perpetual_order szDec roundSize roundPrice db symbol side amount price
        result).2 = some i) :
    acceptedResult result = true := by
  unfold execute_perpetual_order at h
  cases hz : szDec symbol with
  | none => rw [hz] at h; simp at h
  | some d =>
    rw [hz] at h
    dsimp only at h
    split at h
    · simp at h
    · cases result with
      | fail => simp at h
      | ok statuses => exact processStatuses_accept symbol side _ _ statuses db i h

/-- A non-accepted venue response leaves the database and trade id of
`execute_perpetual_order` untouched. -/
theorem execute_notAccept (szDec : String → Option ℕ) (roundSize : ℚ → ℕ → ℚ)
    (roundPrice : ℚ → ℚ) (db : DB) (symbol side : String) (amount price : ℚ)
    (result : OrderResult) (hres : acceptedResult result = false) :
    execute_perpetual_order szDec roundSize roundPrice db symbol side amount price result
      = (db, none) := by
  unfold execute_perpetual_order
  cases szDec symbol with
  | none => rfl
  | some d =>
    dsimp only
    split
    · rfl
    · cases result with
      | fail => rfl
      | ok statuses => exact processStatuses_notAccept symbol side _ _ statuses db hres

/-! ### Claim theorems -/

/-- Claim C6: `calculate_tick` is the deterministic function
`floor(ln(price * quotePrecision / basePrecision) / ln(1.0001))` of its
inputs; `place_limit_order` invokes it with base precision 10^18 for ETH and
ARBITRUM_ETH, 10^8 for BTC, 10^10 for DOT and 10^6 otherwise, quote precision
fixed at 10^6; and in particular
`tick(2000, 1e18, 1e6) = floor(ln(2000*1e6/1e18)/ln(1.0001))`. -/
theorem calculate_tick_spec :
    (∀ price bp qp : ℝ, calculate_tick price bp qp =
      ⌊Real.log (price * qp / bp) / Real.log 1.0001⌋) ∧
    (∀ asset price, place_limit_order_tick asset price =
      calculate_tick price (base_precision_for asset) (10 ^ 6)) ∧
    base_precision_for "ETH" = 10 ^ 18 ∧ base_precision_for "ARBITRUM_ETH" = 10 ^ 18 ∧
    base_precision_for "BTC" = 10 ^ 8 ∧ base_precision_for "DOT" = 10 ^ 10 ∧
    (∀ asset, asset ≠ "ETH" → asset ≠ "ARBITRUM_ETH" → asset ≠ "BTC" → asset ≠ "DOT" →
      base_precision_for asset = 10 ^ 6) ∧
    calculate_tick 2000 (10 ^ 18) (10 ^ 6) =
      ⌊Real.log (2000 * 10 ^ 6 / 10 ^ 18) / Real.log 1.0001⌋ := by
  refine ⟨fun _ _ _ => rfl, fun _ _ => rfl, by decide, by decide, by decide, by decide,
    ?_, rfl⟩
  intro asset h1 h2 h3 h4
  simp [base_precision_for, h1, h2, h3, h4]

/-- Witness for C6: a symbol outside the table gets the default 10^6. -/
theorem calculate_tick_spec_witness : base_precision_for "FLIP" = 10 ^ 6 :=
  calculate_tick_spec.2.2.2.2.2.2.1 "FLIP" (by decide) (by decide) (by decide) (by decide)

/-- Claim C9: `handle_limit_order` computes
`averagePrice = |usdcChange / assetChange|` with 0 when the asset delta is 0,
a fee of `0.0005 * |usdcChange|`, and `fees_asset = fee / averagePrice` with 0
when the average price is 0 — so both divisions are guarded. -/
theorem handle_limit_order_division_safe (o : LimitOrderFill) (r : OrderData)
    (h : handle_limit_order o = some r) :
    r.average_price = (if r.asset_change = 0 then 0 else |r.usdc_change / r.asset_change|) ∧
    r.fees_usdc = 0.0005 * |r.usdc_change| ∧
    r.fees_asset = (if r.average_price = 0 then 0 else r.fees_usdc / r.average_price) ∧
    (r.asset_change = 0 → r.average_price = 0) ∧
    (r.average_price = 0 → r.fees_asset = 0) := by
  unfold handle_limit_order at h
  by_cases hc : (o.base_asset = "ETH" ∨ o.base_asset = "BTC" ∨ o.base_asset = "DOT" ∨
      o.base_asset = "ARBITRUM_ETH") ∧ o.quote_asset = "USDC"
  · rw [if_pos hc] at h
    injection h with h
    subst h
    dsimp only
    set ac : ℚ := (if o.side = "sell" then -(o.sold : ℚ) else (o.bought : ℚ)) /
      fill_asset_precision o.base_asset with hac
    set uc : ℚ := (if o.side = "sell" then (o.bought : ℚ) else -(o.sold : ℚ)) / 10 ^ 6 with huc
    set ap : ℚ := if ac ≠ 0 then |uc / ac| else 0 with hap
    refine ⟨?_, mul_comm _ _, ?_, ?_, ?_⟩
    · rw [hap]
      by_cases h0 : ac = 0 <;> simp [h0]
    · by_cases h0 : ap = 0 <;> simp [h0]
    · intro h0
      rw [hap]
      simp [h0]
    · intro h0
      simp [h0]
  · rw [if_neg hc] at h
    exact absurd h (by simp)

/-- Witness for C9: the decoded sell of 1 ETH for 2000 USDC. -/
theorem handle_limit_order_division_safe_witness :
    c9Data.average_price =
      (if c9Data.asset_change = 0 then 0 else |c9Data.usdc_change / c9Data.asset_change|) ∧
    c9Data.fees_usdc = 0.0005 * |c9Data.usdc_change| ∧
    c9Data.fees_asset =
      (if c9Data.average_price = 0 then 0 else c9Data.fees_usdc / c9Data.average_price) ∧
    (c9Data.asset_change = 0 → c9Data.average_price = 0) ∧
    (c9Data.average_price = 0 → c9Data.fees_asset = 0) :=
  handle_limit_order_division_safe c9Fill c9Data
    (by norm_num [handle_limit_order, c9Fill, c9Data, fill_asset_precision])

/-- Claim C4 is false of the code (code bug): with only the ETH block
requoting (its `last_order_prices` entry is 0) and BTC moved 0.2% — below the
1% threshold, so no BTC order is attempted — the iteration still rewrites
`last_order_prices['BTC']` from 50000 to the current mid 50100, because every
block's `if tasks:` test sees the tasks accumulated by earlier blocks. -/
theorem maker_last_order_prices_cross_asset_update_bug :
    (∀ o ∈ (run_market_making_iteration c4Config c4Prices c4Last).2, o.asset = "ETH") ∧
    (run_market_making_iteration c4Config c4Prices c4Last).1.btc = 50100 ∧
    c4Last.btc = 50000 := by
  have hETH : requote 2000 0 (1/100) = true := by simp [requote]
  have hBTC : requote 50100 50000 (1/100) = false := by
    simp only [requote, decide_eq_false_iff_not]
    rintro (h | h)
    · norm_num at h
    · rw [show (50100 : ℚ) - 50000 = 100 by norm_num] at h
      rw [abs_of_pos (by norm_num : (0:ℚ) < 100)] at h
      norm_num at h
  have hSame : ∀ m : ℚ, m ≠ 0 → requote m m (1/100) = false := by
    intro m hm
    simp only [requote, decide_eq_false_iff_not]
    rintro (h | h)
    · exact hm h
    · simp at h
      norm_num at h
  have hDOT : requote 10 10 (1/100) = false := hSame 10 (by norm_num)
  have hARB : requote 2000 2000 (1/100) = false := hSame 2000 (by norm_num)
  refine ⟨?_, ?_, rfl⟩ <;>
    norm_num [run_market_making_iteration, assetTasks, c4Config, c4Prices, c4Last,
      hETH, hBTC, hDOT, hARB, List.cons_ne_nil]

/-- Claim C5: a `trade_pairs` row is inserted only when the hedge submission
returned a trade id (a response with a `resting` or `filled` status); the
origin (Chainflip) trade row is recorded first and regardless of the hedge
outcome; and a rejected or transport-failed submission leaves exactly the
standalone origin row and no pair row. -/
theorem trade_pair_requires_hedge_id (szDec : String → Option ℕ)
    (bpsTable : String → String → Option ℤ) (roundSize : ℚ → ℕ → ℚ) (roundPrice : ℚ → ℚ)
    (db : DB) (fill : Fill) (result : OrderResult) :
    (∃ rest, (process_order_fill szDec bpsTable roundSize roundPrice db fill result).db.trades
      = db.trades ++ originRow fill :: rest) ∧
    ((process_order_fill szDec bpsTable roundSize roundPrice db fill result).db.pairs ≠ db.pairs →
      acceptedResult result = true ∧
      ∃ i, (process_order_fill szDec bpsTable roundSize roundPrice db fill
        result).hyperliquid_id = some i) ∧
    (acceptedResult result = false →
      (process_order_fill szDec bpsTable roundSize roundPrice db fill result).db.trades
        = db.trades ++ [originRow fill] ∧
      (process_order_fill szDec bpsTable roundSize roundPrice db fill result).db.pairs
        = db.pairs ∧
      (process_order_fill szDec bpsTable roundSize roundPrice db fill
        result).hyperliquid_id = none) := by
  unfold process_order_fill
  dsimp only
  split
  · refine ⟨⟨[], rfl⟩, ?_, ?_⟩
    · intro hp
      exact absurd rfl hp
    · intro _
      exact ⟨rfl, rfl, rfl⟩
  · rename_i d hsz
    split
    · rename_i heq
      obtain ⟨⟨t, ht⟩, hp⟩ := execute_db szDec roundSize roundPrice _ _ _ _ _ result
      refine ⟨⟨t, by rw [ht]; simp [record_trade, originRow]⟩, ?_, ?_⟩
      · intro hpairs
        rw [hp] at hpairs
        exact absurd rfl hpairs
      · intro hres
        rw [execute_notAccept szDec roundSize roundPrice _ _ _ _ _ result hres]
        exact ⟨by simp [record_trade, originRow], rfl, rfl⟩
    · rename_i i heq
      obtain ⟨⟨t, ht⟩, hp⟩ := execute_db szDec roundSize roundPrice _ _ _ _ _ result
      refine ⟨⟨t, by rw [ht]; simp [record_trade, originRow]⟩, ?_, ?_⟩
      · intro _
        exact ⟨execute_accept szDec roundSize roundPrice _ _ _ _ _ result i heq, i, rfl⟩
      · intro hres
        rw [execute_notAccept szDec roundSize roundPrice _ _ _ _ _ result hres] at heq
        exact absurd heq (by simp)

/-- Witness for C5: a transport-failed hedge for a 1 ETH buy fill leaves a
standalone origin row and no pair row. -/
theorem trade_pair_requires_hedge_id_witness :
    (∃ rest, (process_order_fill cSzDec cBps cRoundSize cRoundPrice ⟨[], []⟩ c7Fill
      OrderResult.fail).db.trades = ([] : List TradeRow) ++ originRow c7Fill :: rest) ∧
    ((process_order_fill cSzDec cBps cRoundSize cRoundPrice ⟨[], []⟩ c7Fill
        OrderResult.fail).db.pairs ≠ ([] : List PairRow) →
      acceptedResult OrderResult.fail = true ∧
      ∃ i, (process_order_fill cSzDec cBps cRoundSize cRoundPrice ⟨[], []⟩ c7Fill
        OrderResult.fail).hyperliquid_id = some i) ∧
    (acceptedResult OrderResult.fail = false →
      (process_order_fill cSzDec cBps cRoundSize cRoundPrice ⟨[], []⟩ c7Fill
        OrderResult.fail).db.trades = ([] : List TradeRow) ++ [originRow c7Fill] ∧
      (process_order_fill cSzDec cBps cRoundSize cRoundPrice ⟨[], []⟩ c7Fill
        OrderResult.fail).db.pairs = ([] : List PairRow) ∧
      (process_order_fill cSzDec cBps cRoundSize cRoundPrice ⟨[], []⟩ c7Fill
        OrderResult.fail).hyperliquid_id = none) :=
  trade_pair_requires_hedge_id cSzDec cBps cRoundSize cRoundPrice ⟨[], []⟩ c7Fill
    OrderResult.fail

/-- Claim C7: whenever a processed fill yields a hedge trade id, the recorded
pair's pnl is `(adjustedPrice - originPrice) * amount` for an origin buy and
the negation for a sell (the recorded hedge price being the adjusted price),
plus the fee converted to quote units, and `pnl_percentage` is
`pnl / (originPrice * amount) * 100`; in particular an origin buy at 100 with
adjusted price 99.5 and amount 1 gives pnl -0.5 before fees. -/
theorem hedge_pnl_formula (szDec : String → Option ℕ)
    (bpsTable : String → String → Option ℤ) (roundSize : ℚ → ℕ → ℚ) (roundPrice : ℚ → ℚ)
    (db : DB) (fill : Fill) (result : OrderResult) (i : ℕ)
    (h : (process_order_fill szDec bpsTable roundSize roundPrice db fill
      result).hyperliquid_id = some i) :
    (∃ p : PairRow,
      (process_order_fill szDec bpsTable roundSize roundPrice db fill result).db.pairs
        = db.pairs ++ [p] ∧
      p.chainflip_price = fill.price ∧
      p.chainflip_amount = fill.amount ∧
      p.fees_earned = (if fill.fees_asset = fill.base_asset then
        fill.fees_earned_asset * fill.price else fill.fees_earned_asset) ∧
      p.pnl = hedge_pnl_before_fees fill.side fill.price p.hyperliquid_price fill.amount
        + p.fees_earned ∧
      p.pnl_percentage = p.pnl / (fill.price * fill.amount) * 100) ∧
    hedge_pnl_before_fees "buy" 100 99.5 1 = -0.5 := by
  unfold process_order_fill at h ⊢
  dsimp only at h ⊢
  split at h
  · exact absurd h (by simp)
  · rename_i d hsz
    split at h
    · exact absurd h (by simp)
    · rename_i j heq
      dsimp only at h ⊢
      obtain ⟨⟨t, ht⟩, hp⟩ := execute_db szDec roundSize roundPrice _ _ _ _ _ result
      exact ⟨⟨_, by rw [hp]; rfl, rfl, rfl, rfl, rfl, rfl⟩,
        by norm_num [hedge_pnl_before_fees]⟩

/-- Witness for C7: a resting hedge for a 1 ETH buy fill at 100 produces a
pair row satisfying the pnl equations. -/
theorem hedge_pnl_formula_witness :
    (∃ p : PairRow,
      (process_order_fill cSzDec cBps cRoundSize cRoundPrice ⟨[], []⟩ c7Fill
        (OrderResult.ok [OrderStatus.resting 77])).db.pairs = ([] : List PairRow) ++ [p] ∧
      p.chainflip_price = c7Fill.price ∧
      p.chainflip_amount = c7Fill.amount ∧
      p.fees_earned = (if c7Fill.fees_asset = c7Fill.base_asset then
        c7Fill.fees_earned_asset * c7Fill.price else c7Fill.fees_earned_asset) ∧
      p.pnl = hedge_pnl_before_fees c7Fill.side c7Fill.price p.hyperliquid_price
        c7Fill.amount + p.fees_earned ∧
      p.pnl_percentage = p.pnl / (c7Fill.price * c7Fill.amount) * 100) ∧
    hedge_pnl_before_fees "buy" 100 99.5 1 = -0.5 :=
  hedge_pnl_formula cSzDec cBps cRoundSize cRoundPrice ⟨[], []⟩ c7Fill
    (OrderResult.ok [OrderStatus.resting 77]) 2 (by rfl)

/-- Claim C10: an ARBITRUM_ETH fill is hedged on the ETH symbol — the
submission carries symbol "ETH", uses ETH's size decimals and ETH's skew
entry — while the origin trade row and any new trade-pair row keep the asset
ARBITRUM_ETH; and the maker's allMids update always sets the ARBITRUM_ETH mid
equal to the ETH mid. -/
theorem arbitrum_eth_hedged_as_eth (szDec : String → Option ℕ)
    (bpsTable : String → String → Option ℤ) (roundSize : ℚ → ℕ → ℚ) (roundPrice : ℚ → ℚ)
    (db : DB) (fill : Fill) (result : OrderResult)
    (h : fill.base_asset = "ARBITRUM_ETH") :
    ((process_order_fill szDec bpsTable roundSize roundPrice db fill result).submission = none
      → szDec "ETH" = none) ∧
    (∀ s, (process_order_fill szDec bpsTable roundSize roundPrice db fill result).submission
        = some s →
      s.symbol = "ETH" ∧
      s.side = (if fill.side = "buy" then "sell" else "buy") ∧
      (∃ d, szDec "ETH" = some d ∧ s.amount = roundSize fill.amount d) ∧
      s.bps = (if fill.side = "buy" then (bpsTable "ETH" "sell").getD (-5)
        else (bpsTable "ETH" "buy").getD 16) ∧
      s.price = roundPrice (fill.price * (1 + (s.bps : ℚ) / 10000))) ∧
    (∃ rest, (process_order_fill szDec bpsTable roundSize roundPrice db fill result).db.trades
      = db.trades ++ originRow fill :: rest) ∧
    (originRow fill).asset = "ARBITRUM_ETH" ∧
    (∀ p ∈ (process_order_fill szDec bpsTable roundSize roundPrice db fill result).db.pairs,
      p ∈ db.pairs ∨ p.asset = "ARBITRUM_ETH") ∧
    (∀ mids : String → Option ℚ, (updateMids mids).arbitrum_eth = (updateMids mids).eth) := by
  have hmids : ∀ mids : String → Option ℚ,
      (updateMids mids).arbitrum_eth = (updateMids mids).eth := fun _ => rfl
  unfold process_order_fill
  simp only [h, reduceIte]
  split
  · rename_i hsz
    refine ⟨fun _ => hsz, ?_, ⟨[], by simp [record_trade, originRow, h]⟩,
      by simp [record_trade, originRow, h], ?_, hmids⟩
    · intro s hs
      exact absurd hs (by simp)
    · intro p hpmem
      exact Or.inl hpmem
  · rename_i d hsz
    split
    · rename_i heq
      obtain ⟨⟨t, ht⟩, hp⟩ := execute_db szDec roundSize roundPrice _ _ _ _ _ result
      refine ⟨fun hsub => absurd hsub (by simp),
        ?_, ⟨t, by rw [ht]; simp [record_trade, originRow, h]⟩,
        by simp [record_trade, originRow, h], ?_, hmids⟩
      · intro s hs
        injection hs with hs
        subst hs
        exact ⟨rfl, rfl, ⟨d, hsz, rfl⟩, rfl, rfl⟩
      · intro p hpmem
        rw [hp] at hpmem
        exact Or.inl hpmem
    · rename_i j heq
      obtain ⟨⟨t, ht⟩, hp⟩ := execute_db szDec roundSize roundPrice _ _ _ _ _ result
      refine ⟨fun hsub => absurd hsub (by simp),
        ?_, ⟨t, by rw [ht]; simp [record_trade, originRow, h]⟩,
        by simp [record_trade, originRow, h], ?_, hmids⟩
      · intro s hs
        injection hs with hs
        subst hs
        exact ⟨rfl, rfl, ⟨d, hsz, rfl⟩, rfl, rfl⟩
      · intro p hpmem
        dsimp only at hpmem
        rw [hp] at hpmem
        rcases List.mem_append.mp hpmem with hin | hin
        · exact Or.inl hin
        · right
          rw [List.mem_singleton.mp hin]

/-- Witness for C10: a concrete ARBITRUM_ETH fill with a failed hedge. -/
theorem arbitrum_eth_hedged_as_eth_witness :
    ((process_order_fill cSzDec cBps cRoundSize cRoundPrice ⟨[], []⟩ c10Fill
      OrderResult.fail).submission = none → cSzDec "ETH" = none) ∧
    (∀ s, (process_order_fill cSzDec cBps cRoundSize cRoundPrice ⟨[], []⟩ c10Fill
        OrderResult.fail).submission = some s →
      s.symbol = "ETH" ∧
      s.side = (if c10Fill.side = "buy" then "sell" else "buy") ∧
      (∃ d, cSzDec "ETH" = some d ∧ s.amount = cRoundSize c10Fill.amount d) ∧
      s.bps = (if c10Fill.side = "buy" then (cBps "ETH" "sell").getD (-5)
        else (cBps "ETH" "buy").getD 16) ∧
      s.price = cRoundPrice (c10Fill.price * (1 + (s.bps : ℚ) / 10000))) ∧
    (∃ rest, (process_order_fill cSzDec cBps cRoundSize cRoundPrice ⟨[], []⟩ c10Fill
      OrderResult.fail).db.trades = ([] : List TradeRow) ++ originRow c10Fill :: rest) ∧
    (originRow c10Fill).asset = "ARBITRUM_ETH" ∧
    (∀ p ∈ (process_order_fill cSzDec cBps cRoundSize cRoundPrice ⟨[], []⟩ c10Fill
        OrderResult.fail).db.pairs, p ∈ ([] : List PairRow) ∨ p.asset = "ARBITRUM_ETH") ∧
    (∀ mids : String → Option ℚ, (updateMids mids).arbitrum_eth = (updateMids mids).eth) :=
  arbitrum_eth_hedged_as_eth cSzDec cBps cRoundSize cRoundPrice ⟨[], []⟩ c10Fill
    OrderResult.fail (by rfl)


/-! ### Relay scan lemmas -/

theorem flushRev_keys_exact : ∀ (l : List Fill) (s : List TradeKey),
    (flushRev l s).2 = ((flushRev l s).1.map innerKey).reverse ++ s := by
  intro l
  induction l with
  | nil => intro s; simp [flushRev]
  | cons f rest ih =>
    intro s
    by_cases hm : innerKey f ∈ s
    · simp only [flushRev, if_pos hm]
      exact ih s
    · simp only [flushRev, if_neg hm]
      rw [ih (innerKey f :: s)]
      simp

theorem flushRev_mono (l : List Fill) (s : List TradeKey) (k : TradeKey) (hk : k ∈ s) :
    k ∈ (flushRev l s).2 := by
  rw [flushRev_keys_exact]
  exact List.mem_append_right _ hk

theorem flushRev_mem_key : ∀ (l : List Fill) (s : List TradeKey) (f : Fill), f ∈ l →
    innerKey f ∈ (flushRev l s).2 := by
  intro l
  induction l with
  | nil => intro s f hf; cases hf
  | cons g rest ih =>
    intro s f hf
    by_cases hm : innerKey g ∈ s
    · simp only [flushRev, if_pos hm]
      rcases List.mem_cons.mp hf with rfl | hf
      · exact flushRev_mono rest s _ hm
      · exact ih s f hf
    · simp only [flushRev, if_neg hm]
      rcases List.mem_cons.mp hf with rfl | hf
      · exact flushRev_mono rest _ _ (List.mem_cons_self _ _)
      · exact ih _ f hf

theorem flushRev_nodup : ∀ (l : List Fill) (s : List TradeKey),
    ((flushRev l s).1.map innerKey).Nodup ∧
      ∀ k ∈ (flushRev l s).1.map innerKey, k ∉ s := by
  intro l
  induction l with
  | nil => intro s; simp [flushRev]
  | cons f rest ih =>
    intro s
    by_cases hm : innerKey f ∈ s
    · simp only [flushRev, if_pos hm]
      exact ih s
    · simp only [flushRev, if_neg hm]
      obtain ⟨ih1, ih2⟩ := ih (innerKey f :: s)
      refine ⟨List.nodup_cons.mpr ⟨fun hmem => ?_, ih1⟩, ?_⟩
      · exact ih2 _ hmem (List.mem_cons_self _ _)
      · intro k hk
        rcases List.mem_cons.mp hk with rfl | hk
        · exact hm
        · intro hks
          exact ih2 k hk (List.mem_cons_of_mem _ hks)

theorem flushRev_all : ∀ (l : List Fill) (s : List TradeKey),
    (∀ f ∈ l, innerKey f ∉ s) → (l.map innerKey).Nodup →
    flushRev l s = (l, (l.map innerKey).reverse ++ s) := by
  intro l
  induction l with
  | nil => intro s _ _; simp [flushRev]
  | cons f rest ih =>
    intro s hdisj hnd
    have hm : innerKey f ∉ s := hdisj f (List.mem_cons_self _ _)
    simp only [flushRev, if_neg hm]
    rw [ih (innerKey f :: s) ?h1 (List.nodup_cons.mp hnd).2]
    · simp
    case h1 =>
      intro g hg hks
      rcases List.mem_cons.mp hks with heq | hks
      · exact (List.nodup_cons.mp hnd).1 (heq ▸ List.mem_map_of_mem innerKey hg)
      · exact hdisj g (List.mem_cons_of_mem _ hg) hks

theorem innerOnly_flushRev (l : List Fill) (s : List TradeKey) (h : innerOnly s) :
    innerOnly (flushRev l s).2 := by
  rw [flushRev_keys_exact]
  intro k hk
  rcases List.mem_append.mp hk with hk | hk
  · obtain ⟨f, _, rfl⟩ := List.mem_map.mp (List.mem_reverse.mp hk)
    rfl
  · exact h k hk

theorem outerKey_not_mem (s : List TradeKey) (h : innerOnly s) (f : Fill) :
    outerKey f ∉ s := by
  intro hm
  have := h _ hm
  simp [outerKey] at this

theorem flushBuffer_keys_exact (buf : List Fill) (s : List TradeKey) :
    (flushBuffer buf s).2 = ((flushBuffer buf s).1.map innerKey).reverse ++ s :=
  flushRev_keys_exact buf.reverse s

theorem scanLoop_keys_exact (cut sst : ℚ) :
    ∀ (rev buf : List Fill) (ct : Option ℕ) (s : List TradeKey),
    (scanLoop cut sst rev buf ct s).keys =
      ((scanLoop cut sst rev buf ct s).emitted.map innerKey).reverse ++ s := by
  intro rev
  induction rev with
  | nil => intro buf ct s; simp [scanLoop]
  | cons f rest ih =>
    intro buf ct s
    by_cases hcond : cut < (f.timestamp : ℚ) ∧ outerKey f ∉ s
    · simp only [scanLoop, if_pos hcond]
      cases ct with
      | none => exact ih _ _ _
      | some t =>
        by_cases hts : f.timestamp = t
        · simp only [if_pos hts]
          exact ih _ _ _
        · simp only [if_neg hts]
          rw [ih [f] (some f.timestamp) (flushBuffer buf s).2, flushBuffer_keys_exact]
          simp [List.append_assoc]
    · simp only [scanLoop, if_neg hcond]
      by_cases hb : (f.timestamp : ℚ) ≤ sst
      · simp [if_pos hb]
      · simp only [if_neg hb]
        exact ih _ _ _

theorem scanLoop_mono (cut sst : ℚ) (rev buf : List Fill) (ct : Option ℕ)
    (s : List TradeKey) (k : TradeKey) (hk : k ∈ s) :
    k ∈ (scanLoop cut sst rev buf ct s).keys := by
  rw [scanLoop_keys_exact]
  exact List.mem_append_right _ hk

theorem innerOnly_scanLoop (cut sst : ℚ) (rev buf : List Fill) (ct : Option ℕ)
    (s : List TradeKey) (h : innerOnly s) :
    innerOnly (scanLoop cut sst rev buf ct s).keys := by
  rw [scanLoop_keys_exact]
  intro k hk
  rcases List.mem_append.mp hk with hk | hk
  · obtain ⟨g, _, rfl⟩ := List.mem_map.mp (List.mem_reverse.mp hk)
    rfl
  · exact h k hk

theorem scanLoop_nodup (cut sst : ℚ) :
    ∀ (rev buf : List Fill) (ct : Option ℕ) (s : List TradeKey),
    ((scanLoop cut sst rev buf ct s).emitted.map innerKey).Nodup ∧
      ∀ k ∈ (scanLoop cut sst rev buf ct s).emitted.map innerKey, k ∉ s := by
  intro rev
  induction rev with
  | nil => intro buf ct s; simp [scanLoop]
  | cons f rest ih =>
    intro buf ct s
    by_cases hcond : cut < (f.timestamp : ℚ) ∧ outerKey f ∉ s
    · simp only [scanLoop, if_pos hcond]
      cases ct with
      | none => exact ih _ _ _
      | some t =>
        by_cases hts : f.timestamp = t
        · simp only [if_pos hts]
          exact ih _ _ _
        · simp only [if_neg hts]
          obtain ⟨hnd1, hdis1⟩ := flushRev_nodup buf.reverse s
          obtain ⟨hnd2, hdis2⟩ := ih [f] (some f.timestamp) (flushBuffer buf s).2
          have hsub : ∀ k ∈ ((flushBuffer buf s).1.map innerKey), k ∈ (flushBuffer buf s).2 := by
            intro k hk
            rw [flushBuffer_keys_exact]
            exact List.mem_append_left _ (List.mem_reverse.mpr hk)
          have hssub : ∀ k ∈ s, k ∈ (flushBuffer buf s).2 := fun k hk => flushRev_mono _ _ _ hk
          constructor
          · rw [List.map_append]
            refine List.nodup_append.mpr ⟨hnd1, hnd2, ?_⟩
            intro k hk1 hk2
            exact hdis2 k hk2 (hsub k hk1)
          · intro k hk
            rw [List.map_append] at hk
            rcases List.mem_append.mp hk with hk | hk
            · exact hdis1 k hk
            · intro hks
              exact hdis2 k hk (hssub k hks)
    · simp only [scanLoop, if_neg hcond]
      by_cases hb : (f.timestamp : ℚ) ≤ sst
      · simp [if_pos hb]
      · simp only [if_neg hb]
        exact ih _ _ _

theorem scanLoop_buf_key (cut sst : ℚ) :
    ∀ (rev buf : List Fill) (ct : Option ℕ) (s : List TradeKey) (f : Fill), f ∈ buf →
    innerKey f ∈ (scanLoop cut sst rev buf ct s).keys ∨
      f ∈ (scanLoop cut sst rev buf ct s).buf := by
  intro rev
  induction rev with
  | nil =>
    intro buf ct s f hf
    exact Or.inr hf
  | cons g rest ih =>
    intro buf ct s f hf
    by_cases hcond : cut < (g.timestamp : ℚ) ∧ outerKey g ∉ s
    · simp only [scanLoop, if_pos hcond]
      cases ct with
      | none => exact ih _ _ _ f (List.mem_append_left _ hf)
      | some t =>
        by_cases hts : g.timestamp = t
        · simp only [if_pos hts]
          exact ih _ _ _ f (List.mem_append_left _ hf)
        · simp only [if_neg hts]
          left
          apply scanLoop_mono
          exact flushRev_mem_key buf.reverse _ f (List.mem_reverse.mpr hf)
    · simp only [scanLoop, if_neg hcond]
      by_cases hb : (g.timestamp : ℚ) ≤ sst
      · simp only [if_pos hb]
        exact Or.inr hf
      · simp only [if_neg hb]
        exact ih _ _ _ f hf

theorem scanLoop_reach (cut sst : ℚ) (f : Fill) (hfr : cut < (f.timestamp : ℚ)) :
    ∀ (a b buf : List Fill) (ct : Option ℕ) (s : List TradeKey),
    (∀ g ∈ a, sst < (g.timestamp : ℚ)) → innerOnly s →
    innerKey f ∈ (scanLoop cut sst (a ++ f :: b) buf ct s).keys ∨
      f ∈ (scanLoop cut sst (a ++ f :: b) buf ct s).buf := by
  intro a
  induction a with
  | nil =>
    intro b buf ct s _ hio
    have hcond : cut < (f.timestamp : ℚ) ∧ outerKey f ∉ s :=
      ⟨hfr, outerKey_not_mem s hio f⟩
    simp only [List.nil_append, scanLoop, if_pos hcond]
    cases ct with
    | none => exact scanLoop_buf_key cut sst b _ _ s f (List.mem_append_right _ (List.mem_singleton_self f))
    | some t =>
      by_cases hts : f.timestamp = t
      · simp only [if_pos hts]
        exact scanLoop_buf_key cut sst b _ _ s f (List.mem_append_right _ (List.mem_singleton_self f))
      · simp only [if_neg hts]
        exact scanLoop_buf_key cut sst b _ _ _ f (List.mem_singleton_self f)
  | cons g a2 ih =>
    intro b buf ct s ha hio
    have hg : sst < (g.timestamp : ℚ) := ha g (List.mem_cons_self _ _)
    have ha2 : ∀ x ∈ a2, sst < (x.timestamp : ℚ) := fun x hx => ha x (List.mem_cons_of_mem _ hx)
    by_cases hcond : cut < (g.timestamp : ℚ) ∧ outerKey g ∉ s
    · simp only [List.cons_append, scanLoop, if_pos hcond]
      cases ct with
      | none => exact ih b _ _ s ha2 hio
      | some t =>
        by_cases hts : g.timestamp = t
        · simp only [if_pos hts]
          exact ih b _ _ s ha2 hio
        · simp only [if_neg hts]
          exact ih b _ _ _ ha2 (innerOnly_flushRev _ _ hio)
    · simp only [List.cons_append, scanLoop, if_neg hcond]
      have hb : ¬((g.timestamp : ℚ) ≤ sst) := not_le.mpr hg
      simp only [if_neg hb]
      exact ih b _ _ s ha2 hio

theorem scanLoop_ct (cut sst : ℚ) :
    ∀ (rev buf : List Fill) (ct : Option ℕ) (s : List TradeKey) (v : ℕ),
    (scanLoop cut sst rev buf ct s).ct = some v →
    ct = some v ∨ ∃ f ∈ rev, f.timestamp = v ∧ cut < (f.timestamp : ℚ) := by
  intro rev
  induction rev with
  | nil =>
    intro buf ct s v h
    exact Or.inl h
  | cons f rest ih =>
    intro buf ct s v h
    by_cases hcond : cut < (f.timestamp : ℚ) ∧ outerKey f ∉ s
    · simp only [scanLoop, if_pos hcond] at h
      cases ct with
      | none =>
        rcases ih _ _ _ v h with heq | ⟨g, hg, hgv, hgc⟩
        · injection heq with heq
          exact Or.inr ⟨f, List.mem_cons_self _ _, heq, hcond.1⟩
        · exact Or.inr ⟨g, List.mem_cons_of_mem _ hg, hgv, hgc⟩
      | some t =>
        by_cases hts : f.timestamp = t
        · simp only [if_pos hts] at h
          rcases ih _ _ _ v h with heq | ⟨g, hg, hgv, hgc⟩
          · exact Or.inl heq
          · exact Or.inr ⟨g, List.mem_cons_of_mem _ hg, hgv, hgc⟩
        · simp only [if_neg hts] at h
          rcases ih _ _ _ v h with heq | ⟨g, hg, hgv, hgc⟩
          · injection heq with heq
            exact Or.inr ⟨f, List.mem_cons_self _ _, heq, hcond.1⟩
          · exact Or.inr ⟨g, List.mem_cons_of_mem _ hg, hgv, hgc⟩
    · simp only [scanLoop, if_neg hcond] at h
      by_cases hb : (f.timestamp : ℚ) ≤ sst
      · simp only [if_pos hb] at h
        exact Or.inl h
      · simp only [if_neg hb] at h
        rcases ih _ _ _ v h with heq | ⟨g, hg, hgv, hgc⟩
        · exact Or.inl heq
        · exact Or.inr ⟨g, List.mem_cons_of_mem _ hg, hgv, hgc⟩


/-! ### Scan-level lemmas and the checkpoint claim -/

theorem runScan_emitted (sst lpt : ℚ) (s : List TradeKey) (lines : List Fill) :
    (runScan sst lpt s lines).emitted =
      scanEmitAll (max lpt sst) sst lines.reverse [] none s := by
  unfold runScan
  split
  · split <;> rfl
  · rfl

theorem runScan_keys (sst lpt : ℚ) (s : List TradeKey) (lines : List Fill) :
    (runScan sst lpt s lines).keys =
      scanKeysAll (max lpt sst) sst lines.reverse [] none s := by
  unfold runScan
  split
  · split <;> rfl
  · rfl

theorem runScan_keys_exact (sst lpt : ℚ) (s : List TradeKey) (lines : List Fill) :
    (runScan sst lpt s lines).keys =
      ((runScan sst lpt s lines).emitted.map innerKey).reverse ++ s := by
  rw [runScan_keys, runScan_emitted]
  unfold scanKeysAll scanEmitAll
  rw [flushBuffer_keys_exact, scanLoop_keys_exact]
  simp [List.append_assoc]

theorem runScan_mono (sst lpt : ℚ) (s : List TradeKey) (lines : List Fill)
    (k : TradeKey) (hk : k ∈ s) : k ∈ (runScan sst lpt s lines).keys := by
  rw [runScan_keys_exact]
  exact List.mem_append_right _ hk

theorem innerOnly_runScan (sst lpt : ℚ) (s : List TradeKey) (lines : List Fill)
    (h : innerOnly s) : innerOnly (runScan sst lpt s lines).keys := by
  rw [runScan_keys_exact]
  intro k hk
  rcases List.mem_append.mp hk with hk | hk
  · obtain ⟨g, _, rfl⟩ := List.mem_map.mp (List.mem_reverse.mp hk)
    rfl
  · exact h k hk

theorem runScan_nodup (sst lpt : ℚ) (s : List TradeKey) (lines : List Fill) :
    ((runScan sst lpt s lines).emitted.map innerKey).Nodup ∧
      ∀ k ∈ (runScan sst lpt s lines).emitted.map innerKey, k ∉ s := by
  rw [runScan_emitted]
  unfold scanEmitAll
  obtain ⟨hnd1, hdis1⟩ := scanLoop_nodup (max lpt sst) sst lines.reverse [] none s
  obtain ⟨hnd2, hdis2⟩ := flushRev_nodup
    (scanLoop (max lpt sst) sst lines.reverse [] none s).buf.reverse
    (scanLoop (max lpt sst) sst lines.reverse [] none s).keys
  have hkeys : ∀ k ∈ (scanLoop (max lpt sst) sst lines.reverse [] none s).emitted.map innerKey,
      k ∈ (scanLoop (max lpt sst) sst lines.reverse [] none s).keys := by
    intro k hk
    rw [scanLoop_keys_exact]
    exact List.mem_append_left _ (List.mem_reverse.mpr hk)
  constructor
  · rw [List.map_append]
    refine List.nodup_append.mpr ⟨hnd1, hnd2, ?_⟩
    intro k hk1 hk2
    exact hdis2 k hk2 (hkeys k hk1)
  · intro k hk
    rw [List.map_append] at hk
    rcases List.mem_append.mp hk with hk | hk
    · exact hdis1 k hk
    · intro hks
      exact hdis2 k hk (scanLoop_mono _ _ _ _ _ _ k hks)

theorem runScan_reach (sst lpt : ℚ) (s : List TradeKey) (f : Fill) (pre post : List Fill)
    (hpost : ∀ g ∈ post, sst < (g.timestamp : ℚ))
    (hfr : max lpt sst < (f.timestamp : ℚ)) (hio : innerOnly s) :
    innerKey f ∈ (runScan sst lpt s (pre ++ f :: post)).keys := by
  rw [runScan_keys]
  unfold scanKeysAll
  have hrev : (pre ++ f :: post).reverse = post.reverse ++ f :: pre.reverse := by
    simp
  rw [hrev]
  rcases scanLoop_reach (max lpt sst) sst f hfr post.reverse pre.reverse [] none s
      (fun g hg => hpost g (List.mem_reverse.mp hg)) hio with hk | hb
  · exact flushRev_mono _ _ _ hk
  · exact flushRev_mem_key _ _ f (List.mem_reverse.mpr hb)

/-- Claim C3: whenever a scan rewrites the checkpoint file, the written value
is strictly greater than the `last_processed_time` the scan started from, it
is the timestamp of a batch opened during the scan (the timestamp of a fresh
relay record), at least one record was handed to `process_order_fill`, and
the in-memory `last_processed_time` advances to the same value.  In the model
the persisted value is computed only after every flush of the scan, by
construction of `runScan`. -/
theorem checkpoint_monotonic_batch_timestamp (sst lpt : ℚ) (s : List TradeKey)
    (lines : List Fill) (v : ℕ)
    (h : (runScan sst lpt s lines).saved = some v) :
    lpt < (v : ℚ) ∧
    (∃ f ∈ lines, f.timestamp = v ∧ max lpt sst < (f.timestamp : ℚ)) ∧
    (runScan sst lpt s lines).emitted ≠ [] ∧
    (runScan sst lpt s lines).lpt = (v : ℚ) := by
  unfold runScan at h ⊢
  by_cases hlen : 0 < (scanEmitAll (max lpt sst) sst lines.reverse [] none s).length
  · rw [if_pos hlen] at h ⊢
    cases hct : (scanLoop (max lpt sst) sst lines.reverse [] none s).ct with
    | none =>
      rw [hct] at h
      exact absurd h (by simp)
    | some t =>
      rw [hct] at h
      dsimp only at h ⊢
      injection h with h
      subst h
      rcases scanLoop_ct (max lpt sst) sst lines.reverse [] none s t hct with heq | hex
      · exact absurd heq (by simp)
      · obtain ⟨f, hf, hfv, hfc⟩ := hex
        refine ⟨?_, ⟨f, List.mem_reverse.mp hf, hfv, hfc⟩, ?_, rfl⟩
        · calc lpt ≤ max lpt sst := le_max_left _ _
            _ < (f.timestamp : ℚ) := hfc
            _ = (t : ℚ) := by rw [hfv]
        · exact List.length_pos.mp hlen
  · rw [if_neg hlen] at h
    exact absurd h (by simp)

/-- Witness for C3: a single fresh record at timestamp 100 with checkpoint 50
advances the checkpoint to 100. -/
theorem checkpoint_monotonic_batch_timestamp_witness :
    (50 : ℚ) < ((100 : ℕ) : ℚ) ∧
    (∃ f ∈ [c3Fill], f.timestamp = 100 ∧ max (50 : ℚ) 0 < (f.timestamp : ℚ)) ∧
    (runScan 0 50 [] [c3Fill]).emitted ≠ [] ∧
    (runScan 0 50 [] [c3Fill]).lpt = ((100 : ℕ) : ℚ) :=
  checkpoint_monotonic_batch_timestamp 0 50 [] [c3Fill] 100 (by decide)


/-! ### Scan ordering: bridge to the pure batcher, claims C1 and C8 -/

theorem innerKey_ne_of_ts_ne (f g : Fill) (h : f.timestamp ≠ g.timestamp) :
    innerKey f ≠ innerKey g := by
  intro he
  unfold innerKey at he
  exact h (congrArg (fun k => k.2.2.2.1) he)

theorem flushRev_sub : ∀ (l : List Fill) (s : List TradeKey), (flushRev l s).1 ⊆ l := by
  intro l
  induction l with
  | nil => intro s; simp [flushRev]
  | cons f rest ih =>
    intro s
    by_cases hm : innerKey f ∈ s
    · simp only [flushRev, if_pos hm]
      exact (ih s).trans (List.subset_cons_self _ _)
    · simp only [flushRev, if_neg hm]
      intro x hx
      rcases List.mem_cons.mp hx with rfl | hx
      · exact List.mem_cons_self _ _
      · exact List.mem_cons_of_mem _ (ih _ hx)

theorem scanEmitAll_eq_batchScan (cut sst : ℚ) :
    ∀ (rev buf : List Fill) (ct : Option ℕ) (s : List TradeKey),
    (∀ f ∈ rev, cut < (f.timestamp : ℚ)) →
    ((buf ++ rev).map innerKey).Nodup →
    (∀ f ∈ buf ++ rev, innerKey f ∉ s) →
    innerOnly s →
    ((ct = none ∧ buf = []) ∨
      (∃ b bs, ct = some b.timestamp ∧ buf = b :: bs)) →
    scanEmitAll cut sst rev buf ct s = batchScan rev buf := by
  intro rev
  induction rev with
  | nil =>
    intro buf ct s _ hnd hdisj _ _
    unfold scanEmitAll flushBuffer
    simp only [scanLoop]
    rw [flushRev_all buf.reverse s ?hd ?hn]
    · simp [batchScan]
    case hd =>
      intro g hg
      exact hdisj g (by simpa using List.mem_reverse.mp hg)
    case hn =>
      rw [List.map_reverse, List.nodup_reverse]
      simpa using hnd
  | cons f rest ih =>
    intro buf ct s hfresh hnd hdisj hio hinv
    have hcond : cut < (f.timestamp : ℚ) ∧ outerKey f ∉ s :=
      ⟨hfresh f (List.mem_cons_self _ _), outerKey_not_mem s hio f⟩
    have hfr : ∀ g ∈ rest, cut < (g.timestamp : ℚ) :=
      fun g hg => hfresh g (List.mem_cons_of_mem _ hg)
    rcases hinv with ⟨hct, hbuf⟩ | ⟨b, bs, hct, hbuf⟩
    · subst hct
      subst hbuf
      have hstep : scanEmitAll cut sst (f :: rest) [] none s =
          scanEmitAll cut sst rest [f] (some f.timestamp) s := by
        unfold scanEmitAll
        simp only [scanLoop, if_pos hcond, List.nil_append]
      rw [hstep]
      rw [ih [f] (some f.timestamp) s hfr (by simpa using hnd) (by simpa using hdisj) hio
        (Or.inr ⟨f, [], rfl, rfl⟩)]
      rfl
    · subst hct
      subst hbuf
      by_cases hts : f.timestamp = b.timestamp
      · have hstep : scanEmitAll cut sst (f :: rest) (b :: bs) (some b.timestamp) s =
            scanEmitAll cut sst rest ((b :: bs) ++ [f]) (some b.timestamp) s := by
          unfold scanEmitAll
          simp only [scanLoop, if_pos hcond, if_pos hts]
        rw [hstep]
        have hperm : ((b :: bs) ++ [f]) ++ rest = (b :: bs) ++ f :: rest := by
          simp
        rw [ih ((b :: bs) ++ [f]) (some b.timestamp) s hfr (by rw [hperm]; exact hnd)
          (by rw [hperm]; exact hdisj) hio (Or.inr ⟨b, bs ++ [f], rfl, rfl⟩)]
        simp only [batchScan, if_pos hts]
      · have hd : ∀ g ∈ (b :: bs).reverse, innerKey g ∉ s := by
          intro g hg
          exact hdisj g (List.mem_append_left _ (List.mem_reverse.mp hg))
        have hn : ((b :: bs).reverse.map innerKey).Nodup := by
          rw [List.map_reverse, List.nodup_reverse]
          exact ((List.map_append innerKey _ _) ▸ hnd).of_append_left
        have hstep : scanEmitAll cut sst (f :: rest) (b :: bs) (some b.timestamp) s =
            (flushBuffer (b :: bs) s).1 ++
              scanEmitAll cut sst rest [f] (some f.timestamp) (flushBuffer (b :: bs) s).2 := by
          unfold scanEmitAll
          simp only [scanLoop, if_pos hcond, if_neg hts, List.append_assoc]
        rw [hstep]
        have hdisj2 : ∀ g ∈ [f] ++ rest, innerKey g ∉ (flushBuffer (b :: bs) s).2 := by
          intro g hg hmem
          rw [flushBuffer_keys_exact] at hmem
          rcases List.mem_append.mp hmem with hmem | hmem
          · obtain ⟨x, hx, hxg⟩ := List.mem_map.mp (List.mem_reverse.mp hmem)
            have hxbuf : x ∈ (b :: bs) :=
              List.mem_reverse.mp (flushRev_sub (b :: bs).reverse s hx)
            have hdisjnd := (List.nodup_append.mp ((List.map_append innerKey _ _) ▸ hnd)).2.2
            exact hdisjnd (hxg ▸ List.mem_map_of_mem innerKey hxbuf)
              (List.mem_map_of_mem innerKey (by simpa using hg))
          · exact hdisj g (List.mem_append_right _ (by simpa using hg)) hmem
        have hnd2 : (([f] ++ rest).map innerKey).Nodup := by
          have := ((List.map_append innerKey _ _) ▸ hnd).of_append_right
          simpa using this
        rw [ih [f] (some f.timestamp) (flushBuffer (b :: bs) s).2 hfr hnd2 hdisj2
          (innerOnly_flushRev _ _ hio) (Or.inr ⟨f, [], rfl, rfl⟩)]
        have hfl1 : (flushBuffer (b :: bs) s).1 = (b :: bs).reverse := by
          unfold flushBuffer
          rw [flushRev_all (b :: bs).reverse s hd hn]
        rw [hfl1]
        simp only [batchScan, if_neg hts]

theorem map_ts_reverse_of_const (l : List Fill) (c : ℕ) (h : ∀ x ∈ l, x.timestamp = c) :
    (l.reverse.map Fill.timestamp) = l.map Fill.timestamp := by
  have hrep : l.map Fill.timestamp = List.replicate (l.map Fill.timestamp).length c := by
    apply List.eq_replicate_of_mem
    intro x hx
    obtain ⟨g, hg, rfl⟩ := List.mem_map.mp hx
    exact h g hg
  rw [List.map_reverse, hrep, List.reverse_replicate]

theorem batchScan_map_ts : ∀ (rev buf : List Fill) (c : ℕ),
    (∀ x ∈ buf, x.timestamp = c) →
    (batchScan rev buf).map Fill.timestamp =
      buf.map Fill.timestamp ++ rev.map Fill.timestamp := by
  intro rev
  induction rev with
  | nil =>
    intro buf c hc
    simp only [batchScan, List.map_nil, List.append_nil]
    exact map_ts_reverse_of_const buf c hc
  | cons f rest ih =>
    intro buf c hc
    match buf, hc with
    | [], _ =>
      simp only [batchScan]
      rw [ih [f] f.timestamp (by simp)]
      simp
    | b :: bs, hc =>
      by_cases hts : f.timestamp = b.timestamp
      · simp only [batchScan, if_pos hts]
        rw [ih ((b :: bs) ++ [f]) c ?hcc]
        · simp
        case hcc =>
          intro x hx
          rcases List.mem_append.mp hx with hx | hx
          · exact hc x hx
          · rw [List.mem_singleton.mp hx, hts]
            exact hc b (List.mem_cons_self _ _)
      · simp only [batchScan, if_neg hts]
        rw [List.map_append, ih [f] f.timestamp (by simp),
          map_ts_reverse_of_const (b :: bs) c hc]
        simp

theorem batchScan_filter : ∀ (rev buf : List Fill) (c t : ℕ),
    (∀ x ∈ buf, x.timestamp = c) →
    (∀ g ∈ rev, g.timestamp ≤ c) →
    List.Pairwise (fun x y => y.timestamp ≤ x.timestamp) rev →
    (batchScan rev buf).filter (fun x => x.timestamp = t) =
      ((buf ++ rev).filter (fun x => x.timestamp = t)).reverse := by
  intro rev
  induction rev with
  | nil =>
    intro buf c t _ _ _
    simp [batchScan, List.filter_reverse]
  | cons f rest ih =>
    intro buf c t hc hle hpw
    have hlef : ∀ g ∈ rest, g.timestamp ≤ f.timestamp := fun g hg =>
      (List.pairwise_cons.mp hpw).1 g hg
    have hpwr : List.Pairwise (fun x y => y.timestamp ≤ x.timestamp) rest :=
      (List.pairwise_cons.mp hpw).2
    match buf, hc with
    | [], _ =>
      simp only [batchScan]
      rw [ih [f] f.timestamp t (by simp) hlef hpwr]
      simp
    | b :: bs, hc =>
      have hbc : b.timestamp = c := hc b (List.mem_cons_self _ _)
      by_cases hts : f.timestamp = b.timestamp
      · simp only [batchScan, if_pos hts]
        rw [ih ((b :: bs) ++ [f]) c t ?hcc ?hlee hpwr]
        · simp
        case hcc =>
          intro x hx
          rcases List.mem_append.mp hx with hx | hx
          · exact hc x hx
          · rw [List.mem_singleton.mp hx, hts, hbc]
        case hlee =>
          intro g hg
          calc g.timestamp ≤ f.timestamp := hlef g hg
            _ = c := by rw [hts, hbc]
      · have hflt : f.timestamp < c := lt_of_le_of_ne
          (hbc ▸ hle f (List.mem_cons_self _ _)) (hbc ▸ hts)
        simp only [batchScan, if_neg hts]
        rw [List.filter_append, List.filter_reverse,
          ih [f] f.timestamp t (by simp) hlef hpwr]
        have hfr : f :: rest = [f] ++ rest := rfl
        by_cases htc : t = c
        · have hfil1 : List.filter (fun x => decide (x.timestamp = t)) [f] = [] := by
            simp only [List.filter_eq_nil_iff, decide_eq_true_eq, List.mem_singleton]
            rintro g rfl
            omega
          have hfil2 : List.filter (fun x => decide (x.timestamp = t)) rest = [] := by
            simp only [List.filter_eq_nil_iff, decide_eq_true_eq]
            intro g hg
            have := hlef g hg
            omega
          rw [hfr]
          simp only [List.filter_append]
          rw [hfil1, hfil2]
          simp
        · have hfilb : List.filter (fun x => decide (x.timestamp = t)) (b :: bs) = [] := by
            simp only [List.filter_eq_nil_iff, decide_eq_true_eq]
            intro g hg
            have := hc g hg
            omega
          rw [hfr]
          simp only [List.filter_append]
          rw [hfilb]
          simp

theorem batchScan_filter_nil (rev : List Fill) (t : ℕ)
    (hpw : List.Pairwise (fun x y => y.timestamp ≤ x.timestamp) rev) :
    (batchScan rev []).filter (fun x => x.timestamp = t) =
      (rev.filter (fun x => x.timestamp = t)).reverse := by
  cases rev with
  | nil => simp [batchScan]
  | cons f rest =>
    simp only [batchScan]
    rw [batchScan_filter rest [f] f.timestamp t (by simp)
      (fun g hg => (List.pairwise_cons.mp hpw).1 g hg) (List.pairwise_cons.mp hpw).2]
    simp

/-- Claim C8: a relay file holding exactly three fresh records with
timestamps 101, 100, 100 in file-line order (the two timestamp-100 records
with distinct identity keys) is delivered to `process_order_fill` as the two
timestamp-100 records in their original relative order followed by the
timestamp-101 record — timestamps [100, 100, 101]. -/
theorem scan_reverse_file_order_delivery (sst lpt : ℚ) (s : List TradeKey) (a b c : Fill)
    (ha : a.timestamp = 101) (hb : b.timestamp = 100) (hc : c.timestamp = 100)
    (hfresh : max lpt sst < 100)
    (hbc : innerKey b ≠ innerKey c)
    (hsa : innerKey a ∉ s) (hsb : innerKey b ∉ s) (hsc : innerKey c ∉ s)
    (hio : innerOnly s) :
    (runScan sst lpt s [a, b, c]).emitted = [b, c, a] ∧
    (runScan sst lpt s [a, b, c]).emitted.map Fill.timestamp = [100, 100, 101] := by
  have hfa : max lpt sst < (a.timestamp : ℚ) := by
    calc max lpt sst < 100 := hfresh
      _ < (a.timestamp : ℚ) := by rw [ha]; norm_num
  have hfb : max lpt sst < (b.timestamp : ℚ) := by rw [hb]; exact_mod_cast hfresh
  have hfc : max lpt sst < (c.timestamp : ℚ) := by rw [hc]; exact_mod_cast hfresh
  have hca : innerKey c ≠ innerKey a := innerKey_ne_of_ts_ne c a (by rw [hc, ha]; omega)
  have hba : innerKey b ≠ innerKey a := innerKey_ne_of_ts_ne b a (by rw [hb, ha]; omega)
  have hEB : (runScan sst lpt s [a, b, c]).emitted = batchScan [c, b, a] [] := by
    rw [runScan_emitted]
    have hrev : ([a, b, c] : List Fill).reverse = [c, b, a] := by simp
    rw [hrev]
    apply scanEmitAll_eq_batchScan
    · intro f hf
      simp only [List.mem_cons, List.not_mem_nil, or_false] at hf
      rcases hf with rfl | rfl | rfl
      · exact hfc
      · exact hfb
      · exact hfa
    · simp only [List.nil_append, List.map_cons, List.map_nil]
      simp [List.nodup_cons, hca, hba, Ne.symm hbc]
    · intro f hf
      simp only [List.nil_append, List.mem_cons, List.not_mem_nil, or_false] at hf
      rcases hf with rfl | rfl | rfl <;> assumption
    · exact hio
    · exact Or.inl ⟨rfl, rfl⟩
  have h1 : b.timestamp = c.timestamp := by rw [hb, hc]
  have h2 : a.timestamp ≠ c.timestamp := by rw [ha, hc]; omega
  constructor
  · rw [hEB]
    simp [batchScan, h1, h2]
  · rw [hEB, batchScan_map_ts [c, b, a] [] 0 (by simp)]
    simp [ha, hb, hc]

/-- Claim C1, amended: for a chronological (non-decreasing timestamp) relay
file of fresh records with distinct identity keys, the scan delivers the
records with timestamps in the REVERSED file order — batches of equal
timestamp newest-first, in non-increasing timestamp order — while preserving
the original relay order of same-timestamp records (the filter at each
timestamp equals the file's). -/
theorem scan_delivers_batches_newest_first (sst lpt : ℚ) (s : List TradeKey) (lines : List Fill)
    (hchrono : List.Pairwise (fun x y : Fill => x.timestamp ≤ y.timestamp) lines)
    (hfresh : ∀ f ∈ lines, max lpt sst < (f.timestamp : ℚ))
    (hnodup : (lines.map innerKey).Nodup)
    (hdisj : ∀ f ∈ lines, innerKey f ∉ s)
    (hio : innerOnly s) :
    ((runScan sst lpt s lines).emitted.map Fill.timestamp
        = (lines.map Fill.timestamp).reverse) ∧
    (∀ t, (runScan sst lpt s lines).emitted.filter (fun f => f.timestamp = t)
        = lines.filter (fun f => f.timestamp = t)) ∧
    List.Pairwise (fun x y : Fill => y.timestamp ≤ x.timestamp)
      (runScan sst lpt s lines).emitted := by
  have hEB : (runScan sst lpt s lines).emitted = batchScan lines.reverse [] := by
    rw [runScan_emitted]
    apply scanEmitAll_eq_batchScan
    · intro f hf
      exact hfresh f (List.mem_reverse.mp hf)
    · rw [List.nil_append, List.map_reverse, List.nodup_reverse]
      exact hnodup
    · intro f hf
      exact hdisj f (by simpa using hf)
    · exact hio
    · exact Or.inl ⟨rfl, rfl⟩
  have hmap : (runScan sst lpt s lines).emitted.map Fill.timestamp
      = (lines.map Fill.timestamp).reverse := by
    rw [hEB, batchScan_map_ts lines.reverse [] 0 (by simp), List.map_reverse]
    simp
  refine ⟨hmap, ?_, ?_⟩
  · intro t
    rw [hEB, batchScan_filter_nil lines.reverse t ?pw]
    · rw [List.filter_reverse, List.reverse_reverse]
    case pw =>
      rw [List.pairwise_reverse]
      exact hchrono
  · have hp : List.Pairwise (fun x y : ℕ => y ≤ x)
        ((runScan sst lpt s lines).emitted.map Fill.timestamp) := by
      rw [hmap]
      rw [List.pairwise_reverse]
      exact List.pairwise_map.mpr hchrono
    exact List.pairwise_map.mp hp

/-- Counterexample to claim C1 as stated: a chronological relay file with
timestamps [100, 101] is delivered in timestamp order [101, 100], which is
not non-decreasing. -/
theorem scan_chronological_not_nondecreasing_cex :
    c3Fill.timestamp = 100 ∧ c8FillA.timestamp = 101 ∧
    (runScan 0 0 [] [c3Fill, c8FillA]).emitted.map Fill.timestamp = [101, 100] ∧
    ¬ List.Pairwise (fun x y : ℕ => x ≤ y)
      ((runScan 0 0 [] [c3Fill, c8FillA]).emitted.map Fill.timestamp) := by decide

/-- Witness for C8: the concrete reverse-chronological file. -/
theorem scan_reverse_file_order_delivery_witness :
    (runScan 0 0 [] [c8FillA, c3Fill, c8FillB]).emitted = [c3Fill, c8FillB, c8FillA] ∧
    (runScan 0 0 [] [c8FillA, c3Fill, c8FillB]).emitted.map Fill.timestamp
      = [100, 100, 101] :=
  scan_reverse_file_order_delivery 0 0 [] c8FillA c3Fill c8FillB rfl rfl rfl (by norm_num) (by decide)
    (by decide) (by decide) (by decide) (fun k hk => absurd hk (List.not_mem_nil k))

/-- Witness for the amended C1 on a concrete chronological file. -/
theorem scan_delivers_batches_newest_first_witness :
    ((runScan 0 0 [] [c3Fill, c8FillA]).emitted.map Fill.timestamp
        = ([c3Fill, c8FillA].map Fill.timestamp).reverse) ∧
    (∀ t, (runScan 0 0 [] [c3Fill, c8FillA]).emitted.filter (fun f => f.timestamp = t)
        = [c3Fill, c8FillA].filter (fun f => f.timestamp = t)) ∧
    List.Pairwise (fun x y : Fill => y.timestamp ≤ x.timestamp)
      (runScan 0 0 [] [c3Fill, c8FillA]).emitted :=
  scan_delivers_batches_newest_first 0 0 [] [c3Fill, c8FillA] (by decide) (by decide) (by decide) (by decide)
    (fun k hk => absurd hk (List.not_mem_nil k))


/-! ### Whole-run duplicate suppression: claim C2 -/

theorem runRelay_cons (sst : ℚ) (lines : List Fill) (more : List (List Fill))
    (lpt : ℚ) (s : List TradeKey) :
    runRelay sst (lines :: more) lpt s =
      ((runScan sst lpt s lines).emitted ::
          (runRelay sst more (runScan sst lpt s lines).lpt (runScan sst lpt s lines).keys).1,
        (runRelay sst more (runScan sst lpt s lines).lpt (runScan sst lpt s lines).keys).2) :=
  rfl

theorem runRelay_keys_exact (sst : ℚ) :
    ∀ (files : List (List Fill)) (lpt : ℚ) (s : List TradeKey),
    (runRelay sst files lpt s).2.2 =
      ((runRelay sst files lpt s).1.flatten.map innerKey).reverse ++ s := by
  intro files
  induction files with
  | nil => intro lpt s; simp [runRelay]
  | cons lines more ih =>
    intro lpt s
    rw [runRelay_cons]
    dsimp only
    rw [ih, runScan_keys_exact]
    simp [List.append_assoc]

theorem runRelay_mono (sst : ℚ) (files : List (List Fill)) (lpt : ℚ) (s : List TradeKey)
    (k : TradeKey) (hk : k ∈ s) : k ∈ (runRelay sst files lpt s).2.2 := by
  rw [runRelay_keys_exact]
  exact List.mem_append_right _ hk

theorem runRelay_nodup (sst : ℚ) :
    ∀ (files : List (List Fill)) (lpt : ℚ) (s : List TradeKey),
    ((runRelay sst files lpt s).1.flatten.map innerKey).Nodup ∧
      ∀ k ∈ (runRelay sst files lpt s).1.flatten.map innerKey, k ∉ s := by
  intro files
  induction files with
  | nil => intro lpt s; simp [runRelay]
  | cons lines more ih =>
    intro lpt s
    obtain ⟨hnd1, hdis1⟩ := runScan_nodup sst lpt s lines
    obtain ⟨hnd2, hdis2⟩ := ih (runScan sst lpt s lines).lpt (runScan sst lpt s lines).keys
    have hkeys : ∀ k ∈ (runScan sst lpt s lines).emitted.map innerKey,
        k ∈ (runScan sst lpt s lines).keys := by
      intro k hk
      rw [runScan_keys_exact]
      exact List.mem_append_left _ (List.mem_reverse.mpr hk)
    rw [runRelay_cons]
    dsimp only
    constructor
    · rw [List.flatten_cons, List.map_append]
      refine List.nodup_append.mpr ⟨hnd1, hnd2, ?_⟩
      intro k hk1 hk2
      exact hdis2 k hk2 (hkeys k hk1)
    · intro k hk
      rw [List.flatten_cons, List.map_append] at hk
      rcases List.mem_append.mp hk with hk | hk
      · exact hdis1 k hk
      · intro hks
        exact hdis2 k hk (runScan_mono sst lpt s lines k hks)

theorem runRelay_reach (sst : ℚ) :
    ∀ (files : List (List Fill)) (lpt : ℚ) (s : List TradeKey) (i : ℕ)
      (hi : i < files.length) (f : Fill) (pre post : List Fill),
    files.get ⟨i, hi⟩ = pre ++ f :: post →
    (∀ g ∈ post, sst < (g.timestamp : ℚ)) →
    max (relayStateAfter sst (files.take i) lpt s).1 sst < (f.timestamp : ℚ) →
    innerOnly s →
    innerKey f ∈ (runRelay sst files lpt s).2.2 := by
  intro files
  induction files with
  | nil =>
    intro lpt s i hi
    exact absurd hi (Nat.not_lt_zero i)
  | cons lines more ih =>
    intro lpt s i hi f pre post hsplit hreach hfresh hio
    cases i with
    | zero =>
      have hk : innerKey f ∈ (runScan sst lpt s lines).keys := by
        have hl : lines = pre ++ f :: post := hsplit
        rw [hl]
        exact runScan_reach sst lpt s f pre post hreach hfresh hio
      rw [runRelay_cons]
      exact runRelay_mono sst more _ _ _ hk
    | succ j =>
      rw [runRelay_cons]
      exact ih (runScan sst lpt s lines).lpt (runScan sst lpt s lines).keys j
        (Nat.lt_of_succ_lt_succ hi) f pre post hsplit hreach hfresh
        (innerOnly_runScan sst lpt s lines hio)

/-- Claim C2: within one run (fresh `processed_trades`), an identity key that
appears in the relay — in however many identical copies, seen in one scan or
across several — causes exactly one `process_order_fill` invocation, provided
one copy is fresh at the scan that sees it and no stale (pre-start) record
follows it in the file.  At most one invocation holds unconditionally: every
processed record's key joins `processed_trades` first, and the flush-time
check skips keys already present. -/
theorem relay_duplicate_processed_exactly_once (sst lpt0 : ℚ) (files : List (List Fill))
    (i : ℕ) (hi : i < files.length) (f : Fill) (pre post : List Fill)
    (hsplit : files.get ⟨i, hi⟩ = pre ++ f :: post)
    (hreach : ∀ g ∈ post, sst < (g.timestamp : ℚ))
    (hfresh : max (relayStateAfter sst (files.take i) lpt0 []).1 sst < (f.timestamp : ℚ)) :
    @List.count TradeKey instBEqOfDecidableEq (innerKey f)
      ((runRelay sst files lpt0 []).1.flatten.map innerKey) = 1 := by
  have hio : innerOnly ([] : List TradeKey) := fun k hk => absurd hk (List.not_mem_nil k)
  have hk := runRelay_reach sst files lpt0 [] i hi f pre post hsplit hreach hfresh hio
  rw [runRelay_keys_exact, List.append_nil] at hk
  have hmem : innerKey f ∈ (runRelay sst files lpt0 []).1.flatten.map innerKey :=
    List.mem_reverse.mp hk
  obtain ⟨hnd, _⟩ := runRelay_nodup sst files lpt0 []
  exact List.count_eq_one_of_mem hnd hmem

/-- Witness for C2: the same record is present in scan one and duplicated in
scan two; it is processed exactly once over the run. -/
theorem relay_duplicate_processed_exactly_once_witness :
    @List.count TradeKey instBEqOfDecidableEq (innerKey c3Fill)
      ((runRelay 0 [[c3Fill], [c3Fill, c3Fill]] 0 []).1.flatten.map innerKey) = 1 :=
  relay_duplicate_processed_exactly_once 0 0 [[c3Fill], [c3Fill, c3Fill]] 0 (by decide) c3Fill [] [] rfl
    (fun g hg => absurd hg (List.not_mem_nil g)) (by decide)

end MakerHedge
